import Mathlib

/-!
Verification of the PCB reverse-engineering backend.

Shallow embedding of the pure computational core of
`app/services/detector.py`, `app/services/schematic_builder.py`,
`app/services/tracer.py` and `app/services/ocr_service.py`.

Python floats are modelled as rationals (ℚ); Python ints as ℤ/ℕ.
Python's floor division `//` is `Int.fdiv`; `int()` truncation of a
nonnegative rational is `⌊q⌋`, of a general rational truncation toward
zero.  Lists keep Python list order; Python's stable sort is modelled
by `List.insertionSort` (any stable sort of a list under a total
preorder yields the same list, so this is extensionally faithful to
CPython's Timsort with `reverse=True`, which keeps ties in original
order).
-/

/-- A Roboflow prediction dictionary: centre coordinates `x`, `y`,
box `width`/`height`, a `confidence` score and a class label
(`detector.py` reads the keys `x`, `y`, `width`, `height`,
`confidence`, `class`). -/
structure RoboPred where
  x : ℚ
  y : ℚ
  width : ℚ
  height : ℚ
  confidence : ℚ
  cls : String
deriving DecidableEq, Repr

/-- Corner representation used by `_bbox_to_corners`. -/
structure Corners where
  x1 : ℚ
  y1 : ℚ
  x2 : ℚ
  y2 : ℚ
deriving DecidableEq, Repr

/-- `_bbox_to_corners` of `detector.py`: centre/width/height to corners. -/
def bboxToCorners (p : RoboPred) : Corners :=
  { x1 := p.x - p.width / 2
    y1 := p.y - p.height / 2
    x2 := p.x + p.width / 2
    y2 := p.y + p.height / 2 }

/-- `_compute_iou` of `detector.py`: intersection-over-union of two
predictions, 0 when the intersection is empty or either area is
non-positive. -/
def computeIoU (p q : RoboPred) : ℚ :=
  let b1 := bboxToCorners p
  let b2 := bboxToCorners q
  let xLeft := max b1.x1 b2.x1
  let yTop := max b1.y1 b2.y1
  let xRight := min b1.x2 b2.x2
  let yBottom := min b1.y2 b2.y2
  if xRight ≤ xLeft ∨ yBottom ≤ yTop then 0
  else
    let interArea := (xRight - xLeft) * (yBottom - yTop)
    let area1 := (b1.x2 - b1.x1) * (b1.y2 - b1.y1)
    let area2 := (b2.x2 - b2.x1) * (b2.y2 - b2.y1)
    if area1 ≤ 0 ∨ area2 ≤ 0 then 0
    else interArea / (area1 + area2 - interArea)

/-- The descending-confidence order used by
`preds.sort(key=confidence, reverse=True)`. -/
def rConf (a b : RoboPred) : Prop := b.confidence ≤ a.confidence

instance : DecidableRel rConf := fun a b =>
  inferInstanceAs (Decidable (b.confidence ≤ a.confidence))

instance : IsTotal RoboPred rConf := ⟨fun a b => le_total b.confidence a.confidence⟩

instance : IsTrans RoboPred rConf := ⟨fun _ _ _ h1 h2 => le_trans h2 h1⟩

/-- The confidence filter followed by the stable descending sort done at
the start of `_non_max_suppression`. -/
def sortedFiltered (P : List RoboPred) (tConf : ℚ) : List RoboPred :=
  (P.filter (fun p => decide (tConf ≤ p.confidence))).insertionSort rConf

/-- The greedy keep loop of `_non_max_suppression`: a candidate is kept
exactly when its IoU with every already-kept prediction is strictly
below the threshold (the code discards on `iou >= iou_threshold`). -/
def greedyGo (tIou : ℚ) : List RoboPred → List RoboPred → List RoboPred
  | [], kept => kept
  | c :: rest, kept =>
    if kept.all (fun k => decide (computeIoU c k < tIou)) then
      greedyGo tIou rest (kept ++ [c])
    else
      greedyGo tIou rest kept

/-- `_non_max_suppression` of `detector.py`.  The early `return []` for
an empty filtered list coincides with running the loop on `[]`. -/
def nonMaxSuppression (P : List RoboPred) (tIou tConf : ℚ) : List RoboPred :=
  greedyGo tIou (sortedFiltered P tConf) []

/-- The per-tile merge step of `detect_components` (detector.py lines
115–120): shift the centre by the tile offset, keep all other keys. -/
def mergeTilePred (p : RoboPred) (left top : ℤ) : RoboPred :=
  { p with x := p.x + (left : ℚ), y := p.y + (top : ℚ) }

/-- Concrete predictions used as evaluation points. -/
def predA : RoboPred := ⟨10, 10, 4, 4, 9/10, "Resistor"⟩

def predB : RoboPred := ⟨11, 10, 4, 4, 6/10, "Resistor"⟩

def predC : RoboPred := ⟨10, 11, 4, 4, 4/10, "Resistor"⟩

def predFar : RoboPred := ⟨1000, 1000, 4, 4, 8/10, "IC"⟩

/-- C5: `_compute_iou` is total on rationals and satisfies: symmetry;
IoU of a box with itself is 1 when width and height are positive; and
the result is 0 whenever the corner boxes do not overlap or either box
has non-positive area. -/
theorem C5_iou_props :
    (∀ a b : RoboPred, computeIoU a b = computeIoU b a) ∧
    (∀ a : RoboPred, 0 < a.width → 0 < a.height → computeIoU a a = 1) ∧
    (∀ a b : RoboPred,
      (min (bboxToCorners a).x2 (bboxToCorners b).x2 ≤
          max (bboxToCorners a).x1 (bboxToCorners b).x1 ∨
        min (bboxToCorners a).y2 (bboxToCorners b).y2 ≤
          max (bboxToCorners a).y1 (bboxToCorners b).y1 ∨
        ((bboxToCorners a).x2 - (bboxToCorners a).x1) *
            ((bboxToCorners a).y2 - (bboxToCorners a).y1) ≤ 0 ∨
        ((bboxToCorners b).x2 - (bboxToCorners b).x1) *
            ((bboxToCorners b).y2 - (bboxToCorners b).y1) ≤ 0) →
      computeIoU a b = 0) := by
  refine ⟨?_, ?_, ?_⟩
  · intro a b
    simp only [computeIoU]
    rw [max_comm (bboxToCorners b).x1, max_comm (bboxToCorners b).y1,
      min_comm (bboxToCorners b).x2, min_comm (bboxToCorners b).y2]
    split_ifs <;> first | rfl | tauto | ring_nf
  · intro a hw hh
    simp only [computeIoU, bboxToCorners]
    have hx : a.x - a.width / 2 < a.x + a.width / 2 := by linarith
    have hy : a.y - a.height / 2 < a.y + a.height / 2 := by linarith
    rw [max_self, max_self, min_self, min_self]
    rw [if_neg (by push_neg; exact ⟨hx, hy⟩)]
    have harea : 0 < (a.x + a.width / 2 - (a.x - a.width / 2)) *
        (a.y + a.height / 2 - (a.y - a.height / 2)) := by
      apply mul_pos <;> linarith
    rw [if_neg (by push_neg; constructor <;> linarith)]
    rw [show (a.x + a.width / 2 - (a.x - a.width / 2)) *
          (a.y + a.height / 2 - (a.y - a.height / 2)) +
          (a.x + a.width / 2 - (a.x - a.width / 2)) *
          (a.y + a.height / 2 - (a.y - a.height / 2)) -
          (a.x + a.width / 2 - (a.x - a.width / 2)) *
          (a.y + a.height / 2 - (a.y - a.height / 2)) =
        (a.x + a.width / 2 - (a.x - a.width / 2)) *
          (a.y + a.height / 2 - (a.y - a.height / 2)) by ring]
    exact div_self (ne_of_gt harea)
  · intro a b h
    simp only [computeIoU]
    rcases h with h | h | h | h
    · rw [if_pos (Or.inl h)]
    · rw [if_pos (Or.inr h)]
    · by_cases hover :
        min (bboxToCorners a).x2 (bboxToCorners b).x2 ≤
            max (bboxToCorners a).x1 (bboxToCorners b).x1 ∨
          min (bboxToCorners a).y2 (bboxToCorners b).y2 ≤
            max (bboxToCorners a).y1 (bboxToCorners b).y1
      · rw [if_pos hover]
      · rw [if_neg hover, if_pos (Or.inl h)]
    · by_cases hover :
        min (bboxToCorners a).x2 (bboxToCorners b).x2 ≤
            max (bboxToCorners a).x1 (bboxToCorners b).x1 ∨
          min (bboxToCorners a).y2 (bboxToCorners b).y2 ≤
            max (bboxToCorners a).y1 (bboxToCorners b).y1
      · rw [if_pos hover]
      · rw [if_neg hover, if_pos (Or.inr h)]

/-- C5 witness: the theorem applied at concrete boxes. -/
theorem C5_iou_props_witness :
    computeIoU predA predA = 1 ∧ computeIoU predA predFar = 0 :=
  ⟨C5_iou_props.2.1 predA (by norm_num [predA]) (by norm_num [predA]),
   C5_iou_props.2.2 predA predFar (Or.inl (by norm_num [predA, predFar, bboxToCorners]))⟩

/-- C6: merging a raw per-tile detection with tile offset `(left, top)`
adds the offset to the centre coordinates and passes width, height,
class and confidence through unchanged. -/
theorem C6_tile_merge (p : RoboPred) (left top : ℤ) :
    (mergeTilePred p left top).x = p.x + (left : ℚ) ∧
    (mergeTilePred p left top).y = p.y + (top : ℚ) ∧
    (mergeTilePred p left top).width = p.width ∧
    (mergeTilePred p left top).height = p.height ∧
    (mergeTilePred p left top).cls = p.cls ∧
    (mergeTilePred p left top).confidence = p.confidence :=
  ⟨rfl, rfl, rfl, rfl, rfl, rfl⟩

theorem greedyGo_nil (tIou : ℚ) (acc : List RoboPred) : greedyGo tIou [] acc = acc := rfl

theorem greedyGo_cons (tIou : ℚ) (c : RoboPred) (rest acc : List RoboPred) :
    greedyGo tIou (c :: rest) acc =
      if acc.all (fun k => decide (computeIoU c k < tIou)) then
        greedyGo tIou rest (acc ++ [c])
      else greedyGo tIou rest acc := rfl

theorem greedyGo_append (tIou : ℚ) :
    ∀ (l₁ l₂ acc : List RoboPred),
      greedyGo tIou (l₁ ++ l₂) acc = greedyGo tIou l₂ (greedyGo tIou l₁ acc)
  | [], _, _ => rfl
  | c :: r, l₂, acc => by
    rw [List.cons_append, greedyGo_cons, greedyGo_cons]
    split_ifs <;> exact greedyGo_append tIou r l₂ _

theorem greedyGo_acc_decomp (tIou : ℚ) :
    ∀ (l acc : List RoboPred),
      ∃ t, greedyGo tIou l acc = acc ++ t ∧ t.Sublist l := by
  intro l
  induction l with
  | nil => exact fun acc => ⟨[], by simp [greedyGo_nil], List.Sublist.refl _⟩
  | cons c r ih =>
    intro acc
    rw [greedyGo_cons]
    by_cases h : acc.all (fun k => decide (computeIoU c k < tIou))
    · rw [if_pos h]
      obtain ⟨t, ht, hs⟩ := ih (acc ++ [c])
      exact ⟨c :: t, by simp [ht], hs.cons₂ c⟩
    · rw [if_neg h]
      obtain ⟨t, ht, hs⟩ := ih acc
      exact ⟨t, ht, hs.cons c⟩

theorem mem_of_mem_greedyGo {tIou : ℚ} {l acc : List RoboPred} {d : RoboPred}
    (hd : d ∈ greedyGo tIou l acc) : d ∈ acc ∨ d ∈ l := by
  obtain ⟨t, ht, hs⟩ := greedyGo_acc_decomp tIou l acc
  rw [ht, List.mem_append] at hd
  exact hd.imp id (fun h => hs.subset h)

theorem mem_nms_imp_conf {P : List RoboPred} {tIou tConf : ℚ} {d : RoboPred}
    (hd : d ∈ nonMaxSuppression P tIou tConf) : tConf ≤ d.confidence := by
  rcases mem_of_mem_greedyGo hd with h | h
  · exact absurd h (List.not_mem_nil d)
  · rw [sortedFiltered, List.mem_insertionSort, List.mem_filter] at h
    exact of_decide_eq_true h.2

theorem nms_sorted_aux (P : List RoboPred) (tIou tConf : ℚ) :
    (nonMaxSuppression P tIou tConf).Sorted rConf := by
  obtain ⟨t, ht, hs⟩ := greedyGo_acc_decomp tIou (sortedFiltered P tConf) []
  rw [nonMaxSuppression, ht, List.nil_append]
  exact List.Pairwise.sublist hs (List.sorted_insertionSort rConf _)

theorem nms_sublist_aux (P : List RoboPred) (tIou tConf : ℚ) :
    (nonMaxSuppression P tIou tConf).Sublist (sortedFiltered P tConf) := by
  obtain ⟨t, ht, hs⟩ := greedyGo_acc_decomp tIou (sortedFiltered P tConf) []
  rw [nonMaxSuppression, ht, List.nil_append]
  exact hs

theorem greedyGo_pairwise (tIou : ℚ) :
    ∀ (l acc : List RoboPred),
      acc.Pairwise (fun a b => computeIoU b a < tIou) →
      (greedyGo tIou l acc).Pairwise (fun a b => computeIoU b a < tIou) := by
  intro l
  induction l with
  | nil => exact fun acc h => h
  | cons c r ih =>
    intro acc h
    rw [greedyGo_cons]
    by_cases hall : acc.all (fun k => decide (computeIoU c k < tIou)) = true
    · rw [if_pos hall]
      apply ih
      rw [List.pairwise_append]
      refine ⟨h, List.pairwise_singleton _ _, ?_⟩
      intro a ha b hb
      rw [List.mem_singleton] at hb
      subst hb
      exact of_decide_eq_true (List.all_eq_true.mp hall a ha)
    · rw [if_neg hall]
      exact ih acc h

theorem greedyGo_eq_of_pairwise (tIou : ℚ) :
    ∀ (l acc : List RoboPred),
      (acc ++ l).Pairwise (fun a b => computeIoU b a < tIou) →
      greedyGo tIou l acc = acc ++ l := by
  intro l
  induction l with
  | nil => intro acc _; simp [greedyGo_nil]
  | cons c r ih =>
    intro acc h
    rw [greedyGo_cons]
    have hall : acc.all (fun k => decide (computeIoU c k < tIou)) = true := by
      rw [List.all_eq_true]
      intro k hk
      exact decide_eq_true ((List.pairwise_append.mp h).2.2 k hk c (List.mem_cons_self c r))
    rw [if_pos hall]
    have h' : ((acc ++ [c]) ++ r).Pairwise (fun a b => computeIoU b a < tIou) := by
      rwa [List.append_assoc, List.singleton_append]
    rw [ih (acc ++ [c]) h', List.append_assoc, List.singleton_append]

/-- C2: the NMS reducer keeps exactly the detections of confidence at
least the threshold whose IoU against every previously accepted
survivor (walking the stably descending-sorted filtered list) is
strictly below the IoU threshold; every detection of lower confidence
is dropped; and the concrete 0.9/0.6/0.4 overlapping triple keeps only
the 0.9 detection. -/
theorem C2_nms_characterization :
    (∀ (P : List RoboPred) (tIou tConf : ℚ),
      (∀ d ∈ nonMaxSuppression P tIou tConf, tConf ≤ d.confidence) ∧
      (∀ d : RoboPred, d.confidence < tConf → d ∉ nonMaxSuppression P tIou tConf) ∧
      (∀ (pre post : List RoboPred) (x : RoboPred),
        sortedFiltered P tConf = pre ++ x :: post →
        greedyGo tIou (pre ++ [x]) [] =
          greedyGo tIou pre [] ++
            (if (greedyGo tIou pre []).all (fun k => decide (computeIoU x k < tIou)) then
              [x]
            else [])) ∧
      nonMaxSuppression P tIou tConf = greedyGo tIou (sortedFiltered P tConf) []) ∧
    nonMaxSuppression [predA, predB, predC] (2/5) (1/4) = [predA] := by
  constructor
  · intro P tIou tConf
    refine ⟨fun d hd => mem_nms_imp_conf hd,
      fun d hlt hd => absurd (mem_nms_imp_conf hd) (not_le.mpr hlt), ?_, rfl⟩
    intro pre post x _
    rw [greedyGo_append, greedyGo_cons, greedyGo_nil]
    split_ifs with h
    · rfl
    · rw [greedyGo_nil, List.append_nil]
  · with_unfolding_all decide

/-- C2 witness: the confidence lower bound, applied to the kept
detection of the concrete triple. -/
theorem C2_nms_characterization_witness : (1/4 : ℚ) ≤ predA.confidence :=
  (C2_nms_characterization.1 [predA, predB, predC] (2/5) (1/4)).1 predA
    (by with_unfolding_all decide)

/-- C3: running the NMS reducer on its own output, with the same
thresholds, returns that output unchanged. -/
theorem C3_nms_idempotent (P : List RoboPred) (tIou tConf : ℚ) :
    nonMaxSuppression (nonMaxSuppression P tIou tConf) tIou tConf =
      nonMaxSuppression P tIou tConf := by
  have hfil : (nonMaxSuppression P tIou tConf).filter
      (fun p => decide (tConf ≤ p.confidence)) = nonMaxSuppression P tIou tConf :=
    List.filter_eq_self.mpr fun a ha => decide_eq_true (mem_nms_imp_conf ha)
  have hsf : sortedFiltered (nonMaxSuppression P tIou tConf) tConf =
      nonMaxSuppression P tIou tConf := by
    rw [sortedFiltered, hfil]
    exact List.Sorted.insertionSort_eq (nms_sorted_aux P tIou tConf)
  have hpair : (nonMaxSuppression P tIou tConf).Pairwise
      (fun a b => computeIoU b a < tIou) :=
    greedyGo_pairwise tIou (sortedFiltered P tConf) [] List.Pairwise.nil
  rw [nonMaxSuppression, hsf]
  have := greedyGo_eq_of_pairwise tIou (nonMaxSuppression P tIou tConf) []
    (by simpa using hpair)
  simpa using this

/-- C9: the NMS output is sorted in non-increasing confidence order and
is a subsequence of the stably descending-sorted filtered input. -/
theorem C9_nms_output_order (P : List RoboPred) (tIou tConf : ℚ) :
    (nonMaxSuppression P tIou tConf).Sorted rConf ∧
    (nonMaxSuppression P tIou tConf).Sublist (sortedFiltered P tConf) :=
  ⟨nms_sorted_aux P tIou tConf, nms_sublist_aux P tIou tConf⟩

theorem filter_orderedInsert (t : ℚ) (a : RoboPred) :
    ∀ l : List RoboPred, l.Sorted rConf →
      (l.orderedInsert rConf a).filter (fun x => decide (t ≤ x.confidence)) =
        if t ≤ a.confidence then
          (l.filter (fun x => decide (t ≤ x.confidence))).orderedInsert rConf a
        else l.filter (fun x => decide (t ≤ x.confidence)) := by
  intro l
  induction l with
  | nil =>
    intro _
    by_cases hpa : t ≤ a.confidence <;> simp [List.orderedInsert, hpa]
  | cons b l ih =>
    intro hs
    have hsl : l.Sorted rConf := hs.of_cons
    by_cases hab : rConf a b
    · rw [List.orderedInsert, if_pos hab]
      by_cases hpa : t ≤ a.confidence
      · rw [if_pos hpa]
        by_cases hpb : t ≤ b.confidence
        · have e1 : (a :: b :: l).filter (fun x => decide (t ≤ x.confidence)) =
              a :: b :: l.filter (fun x => decide (t ≤ x.confidence)) := by
            simp [List.filter_cons, hpa, hpb]
          have e2 : (b :: l).filter (fun x => decide (t ≤ x.confidence)) =
              b :: l.filter (fun x => decide (t ≤ x.confidence)) := by
            simp [List.filter_cons, hpb]
          rw [e1, e2, List.orderedInsert, if_pos hab]
        · have hfl : l.filter (fun x => decide (t ≤ x.confidence)) = [] := by
            rw [List.filter_eq_nil_iff]
            intro x hx
            have hbx : rConf b x := List.rel_of_sorted_cons hs x hx
            simp only [decide_eq_true_eq]
            intro htx
            exact hpb (le_trans htx hbx)
          have e1 : (a :: b :: l).filter (fun x => decide (t ≤ x.confidence)) = [a] := by
            simp [List.filter_cons, hpa, hpb, hfl]
          have e2 : (b :: l).filter (fun x => decide (t ≤ x.confidence)) = [] := by
            simp [List.filter_cons, hpb, hfl]
          rw [e1, e2]
          rfl
      · rw [if_neg hpa]
        have e1 : (a :: b :: l).filter (fun x => decide (t ≤ x.confidence)) =
            (b :: l).filter (fun x => decide (t ≤ x.confidence)) := by
          simp [List.filter_cons, hpa]
        rw [e1]
    · rw [List.orderedInsert, if_neg hab]
      have hba : a.confidence < b.confidence := lt_of_not_le hab
      by_cases hpa : t ≤ a.confidence
      · have hpb : t ≤ b.confidence := le_trans hpa (le_of_lt hba)
        rw [if_pos hpa]
        have e1 : (b :: l.orderedInsert rConf a).filter
              (fun x => decide (t ≤ x.confidence)) =
            b :: (l.orderedInsert rConf a).filter (fun x => decide (t ≤ x.confidence)) := by
          simp [List.filter_cons, hpb]
        have e2 : (b :: l).filter (fun x => decide (t ≤ x.confidence)) =
            b :: l.filter (fun x => decide (t ≤ x.confidence)) := by
          simp [List.filter_cons, hpb]
        rw [e1, e2, ih hsl, if_pos hpa, List.orderedInsert, if_neg hab]
      · rw [if_neg hpa]
        by_cases hpb : t ≤ b.confidence
        · have e1 : (b :: l.orderedInsert rConf a).filter
                (fun x => decide (t ≤ x.confidence)) =
              b :: (l.orderedInsert rConf a).filter (fun x => decide (t ≤ x.confidence)) := by
            simp [List.filter_cons, hpb]
          have e2 : (b :: l).filter (fun x => decide (t ≤ x.confidence)) =
              b :: l.filter (fun x => decide (t ≤ x.confidence)) := by
            simp [List.filter_cons, hpb]
          rw [e1, e2, ih hsl, if_neg hpa]
        · have e1 : (b :: l.orderedInsert rConf a).filter
                (fun x => decide (t ≤ x.confidence)) =
              (l.orderedInsert rConf a).filter (fun x => decide (t ≤ x.confidence)) := by
            simp [List.filter_cons, hpb]
          have e2 : (b :: l).filter (fun x => decide (t ≤ x.confidence)) =
              l.filter (fun x => decide (t ≤ x.confidence)) := by
            simp [List.filter_cons, hpb]
          rw [e1, e2, ih hsl, if_neg hpa]

theorem filter_insertionSort (t : ℚ) :
    ∀ l : List RoboPred,
      (l.insertionSort rConf).filter (fun x => decide (t ≤ x.confidence)) =
        (l.filter (fun x => decide (t ≤ x.confidence))).insertionSort rConf := by
  intro l
  induction l with
  | nil => rfl
  | cons a l ih =>
    rw [List.insertionSort, filter_orderedInsert t a _ (List.sorted_insertionSort rConf l)]
    by_cases hpa : t ≤ a.confidence
    · rw [if_pos hpa, ih]
      have e1 : (a :: l).filter (fun x => decide (t ≤ x.confidence)) =
          a :: l.filter (fun x => decide (t ≤ x.confidence)) := by
        simp [List.filter_cons, hpa]
      rw [e1, List.insertionSort]
    · rw [if_neg hpa, ih]
      have e1 : (a :: l).filter (fun x => decide (t ≤ x.confidence)) =
          l.filter (fun x => decide (t ≤ x.confidence)) := by
        simp [List.filter_cons, hpa]
      rw [e1]

theorem sorted_filter_eq_takeWhile (t : ℚ) :
    ∀ l : List RoboPred, l.Sorted rConf →
      l.filter (fun x => decide (t ≤ x.confidence)) =
        l.takeWhile (fun x => decide (t ≤ x.confidence)) := by
  intro l
  induction l with
  | nil => intro _; rfl
  | cons a l ih =>
    intro hs
    by_cases hpa : t ≤ a.confidence
    · have e1 : (a :: l).filter (fun x => decide (t ≤ x.confidence)) =
          a :: l.filter (fun x => decide (t ≤ x.confidence)) := by
        simp [List.filter_cons, hpa]
      have e2 : (a :: l).takeWhile (fun x => decide (t ≤ x.confidence)) =
          a :: l.takeWhile (fun x => decide (t ≤ x.confidence)) := by
        simp [List.takeWhile_cons, hpa]
      rw [e1, e2, ih hs.of_cons]
    · have hfl : (a :: l).filter (fun x => decide (t ≤ x.confidence)) = [] := by
        rw [List.filter_eq_nil_iff]
        intro x hx
        rcases List.mem_cons.mp hx with rfl | hx
        · simpa using hpa
        · have hax : rConf a x := List.rel_of_sorted_cons hs x hx
          simp only [decide_eq_true_eq]
          intro htx
          exact hpa (le_trans htx hax)
      have e2 : (a :: l).takeWhile (fun x => decide (t ≤ x.confidence)) = [] := by
        simp [List.takeWhile_cons, hpa]
      rw [hfl, e2]

/-- C4: NMS is antitone in the confidence threshold: with the IoU
threshold fixed, raising the confidence threshold from `t1` to `t2`
keeps a subset of the detections, so the kept count never grows. -/
theorem C4_nms_conf_antitone (P : List RoboPred) (tIou t1 t2 : ℚ) (h12 : t1 ≤ t2) :
    (∀ d ∈ nonMaxSuppression P tIou t2, d ∈ nonMaxSuppression P tIou t1) ∧
    (nonMaxSuppression P tIou t2).length ≤ (nonMaxSuppression P tIou t1).length := by
  have hff : P.filter (fun x => decide (t2 ≤ x.confidence)) =
      (P.filter (fun x => decide (t1 ≤ x.confidence))).filter
        (fun x => decide (t2 ≤ x.confidence)) := by
    rw [List.filter_filter]
    apply List.filter_congr
    intro x _
    by_cases h2 : t2 ≤ x.confidence
    · have h1 : t1 ≤ x.confidence := le_trans h12 h2
      simp [h1, h2]
    · simp [h2]
  have hs2 : sortedFiltered P t2 =
      (sortedFiltered P t1).takeWhile (fun x => decide (t2 ≤ x.confidence)) := by
    rw [sortedFiltered, hff, ← filter_insertionSort t2, sortedFiltered]
    exact sorted_filter_eq_takeWhile t2 _ (List.sorted_insertionSort rConf _)
  have hsplit : sortedFiltered P t1 =
      sortedFiltered P t2 ++
        (sortedFiltered P t1).dropWhile (fun x => decide (t2 ≤ x.confidence)) := by
    rw [hs2, List.takeWhile_append_dropWhile]
  obtain ⟨t, ht, _⟩ := greedyGo_acc_decomp tIou
    ((sortedFiltered P t1).dropWhile (fun x => decide (t2 ≤ x.confidence)))
    (nonMaxSuppression P tIou t2)
  have hext : nonMaxSuppression P tIou t1 = nonMaxSuppression P tIou t2 ++ t := by
    rw [nonMaxSuppression, hsplit, greedyGo_append]
    exact ht
  constructor
  · intro d hd
    rw [hext]
    exact List.mem_append_left _ hd
  · rw [hext, List.length_append]
    exact Nat.le_add_right _ _

/-- C4 witness: the theorem applied at a concrete detection list and
thresholds 1/4 ≤ 1/2. -/
theorem C4_nms_conf_antitone_witness :
    (nonMaxSuppression [predA, predB] (2/5) (mkRat 1 2)).length ≤
      (nonMaxSuppression [predA, predB] (2/5) (mkRat 1 4)).length :=
  (C4_nms_conf_antitone [predA, predB] (2/5) (mkRat 1 4) (mkRat 1 2) (by decide)).2

/-- A binary track image (`np.ndarray` of shape `(h, w)`): `pix r c` is
the grayscale value at row `r`, column `c`; a pixel is a track pixel
when its value exceeds 127. -/
structure BinImg where
  h : ℕ
  w : ℕ
  pix : ℕ → ℕ → ℕ

/-- A component bounding box dictionary with centre `x`, `y` and
`width`, `height`, as produced by `parse_detections`. -/
structure BBoxQ where
  x : ℚ
  y : ℚ
  width : ℚ
  height : ℚ
deriving DecidableEq, Repr

/-- Python `int()` applied to a float: truncation toward zero. -/
def pyInt (q : ℚ) : ℤ := Int.tdiv q.num (q.den : ℤ)

/-- `np.any(region > 127)` over rows `[ylo, yhi)`, columns `[xlo, xhi)`
of the image (bounds already clamped). -/
def regionAnyWhite (img : BinImg) (ylo yhi xlo xhi : ℕ) : Bool :=
  (List.range (yhi - ylo)).any fun dy =>
    (List.range (xhi - xlo)).any fun dx =>
      decide (127 < img.pix (ylo + dy) (xlo + dx))

/-- `get_track_mask_at_point` of `tracer.py` with the default margin 5:
is any pixel in the clamped 5-pixel neighbourhood a track pixel? -/
def getTrackMaskAtPoint (img : BinImg) (x y : ℤ) : Bool :=
  regionAnyWhite img
    (max 0 (y - 5)).toNat (min (img.h : ℤ) (y + 5)).toNat
    (max 0 (x - 5)).toNat (min (img.w : ℤ) (x + 5)).toNat

/-- The perimeter sample points of `check_track_component_overlap`:
`sp` points on each of the four bounding-box edges.  Python's `//` is
`Int.fdiv`. -/
def perimeterPoints (bbox : BBoxQ) (sp : ℕ) : List (ℤ × ℤ) :=
  let xc := pyInt bbox.x
  let yc := pyInt bbox.y
  let wd := pyInt bbox.width
  let ht := pyInt bbox.height
  let x1 := xc - Int.fdiv wd 2
  let y1 := yc - Int.fdiv ht 2
  let x2 := xc + Int.fdiv wd 2
  let y2 := yc + Int.fdiv ht 2
  ((List.range sp).map fun i => (x1 + Int.fdiv ((x2 - x1) * (i : ℤ)) (sp : ℤ), y1)) ++
  ((List.range sp).map fun i => (x1 + Int.fdiv ((x2 - x1) * (i : ℤ)) (sp : ℤ), y2)) ++
  ((List.range sp).map fun i => (x1, y1 + Int.fdiv ((y2 - y1) * (i : ℤ)) (sp : ℤ))) ++
  ((List.range sp).map fun i => (x2, y1 + Int.fdiv ((y2 - y1) * (i : ℤ)) (sp : ℤ)))

/-- Number of sampled perimeter points that touch a track. -/
def trackHits (img : BinImg) (pts : List (ℤ × ℤ)) : ℕ :=
  pts.countP fun pt => getTrackMaskAtPoint img pt.1 pt.2

/-- The perimeter hit-ratio `track_hits / len(points_to_check)` (a ratio
of two naturals, hence `mkRat`). -/
def hitRatio (img : BinImg) (bbox : BBoxQ) (sp : ℕ) : ℚ :=
  mkRat (trackHits img (perimeterPoints bbox sp)) (perimeterPoints bbox sp).length

/-- `check_track_component_overlap` of `tracer.py`: false on an empty
sample list, else true iff the hit-ratio reaches `minHitRatio`. -/
def checkTrackComponentOverlap (img : BinImg) (bbox : BBoxQ) (sp : ℕ)
    (minHitRatio : ℚ) : Bool :=
  let pts := perimeterPoints bbox sp
  if pts.isEmpty then false
  else decide (minHitRatio ≤ mkRat (trackHits img pts) pts.length)

/-- Left/right/top/bottom bounds of the region of interest of
`check_track_continuity` (margin 25, clamped to the image). -/
def roiX1 (bbox1 bbox2 : BBoxQ) : ℤ := max 0 (min (pyInt bbox1.x) (pyInt bbox2.x) - 25)

def roiY1 (bbox1 bbox2 : BBoxQ) : ℤ := max 0 (min (pyInt bbox1.y) (pyInt bbox2.y) - 25)

def roiX2 (bbox1 bbox2 : BBoxQ) (img : BinImg) : ℤ :=
  min (img.w : ℤ) (max (pyInt bbox1.x) (pyInt bbox2.x) + 25)

def roiY2 (bbox1 bbox2 : BBoxQ) (img : BinImg) : ℤ :=
  min (img.h : ℤ) (max (pyInt bbox1.y) (pyInt bbox2.y) + 25)

/-- `roi.size`: number of pixels of the (possibly empty) sliced region. -/
def roiTotal (bbox1 bbox2 : BBoxQ) (img : BinImg) : ℕ :=
  (roiY2 bbox1 bbox2 img - roiY1 bbox1 bbox2).toNat *
    (roiX2 bbox1 bbox2 img - roiX1 bbox1 bbox2).toNat

/-- `np.sum(region > 127)` over rows `[y0, y0+rows)`, columns
`[x0, x0+cols)`. -/
def countWhite (img : BinImg) (y0 x0 rows cols : ℕ) : ℕ :=
  ((List.range rows).map fun dy =>
    (List.range cols).countP fun dx =>
      decide (127 < img.pix (y0 + dy) (x0 + dx))).sum

/-- Track pixels inside the region of interest. -/
def roiWhite (bbox1 bbox2 : BBoxQ) (img : BinImg) : ℕ :=
  countWhite img (roiY1 bbox1 bbox2).toNat (roiX1 bbox1 bbox2).toNat
    (roiY2 bbox1 bbox2 img - roiY1 bbox1 bbox2).toNat
    (roiX2 bbox1 bbox2 img - roiX1 bbox1 bbox2).toNat

/-- `white_pixels / total_pixels` of the region of interest (0 when the
region is empty, matching the early `return False`). -/
def roiTrackFraction (bbox1 bbox2 : BBoxQ) (img : BinImg) : ℚ :=
  mkRat (roiWhite bbox1 bbox2 img) (roiTotal bbox1 bbox2 img)

/-- `check_track_continuity` of `schematic_builder.py`: false on an
empty region, else true iff the track fraction strictly exceeds the
0.40 threshold. -/
def checkTrackContinuity (bbox1 bbox2 : BBoxQ) (img : BinImg) : Bool :=
  if roiTotal bbox1 bbox2 img = 0 then false
  else decide (mkRat 2 5 < mkRat (roiWhite bbox1 bbox2 img) (roiTotal bbox1 bbox2 img))

/-- `are_components_connected` of `schematic_builder.py`.  The source
compares `sqrt(dx**2 + dy**2) < 140`; since both sides are nonnegative
this is equivalent to `dx**2 + dy**2 < 140**2`, which is what the
rational model tests. -/
def areComponentsConnected (b1 b2 : BBoxQ) (img : BinImg) : Bool :=
  let o1 := checkTrackComponentOverlap img b1 12 (mkRat 35 100)
  let o2 := checkTrackComponentOverlap img b2 12 (mkRat 35 100)
  if o1 && o2 then
    if (b2.x - b1.x) ^ 2 + (b2.y - b1.y) ^ 2 < 140 ^ 2 then
      checkTrackContinuity b1 b2 img
    else false
  else false

theorem perimeterPoints_length (bbox : BBoxQ) : (perimeterPoints bbox 12).length = 48 := rfl

theorem overlap12_iff (img : BinImg) (b : BBoxQ) :
    checkTrackComponentOverlap img b 12 (mkRat 35 100) = true ↔
      mkRat 35 100 ≤ hitRatio img b 12 := by
  have hne : (perimeterPoints b 12).isEmpty = false := by
    have := perimeterPoints_length b
    rcases h : perimeterPoints b 12 with _ | ⟨p, l⟩
    · rw [h] at this
      simp at this
    · rfl
  rw [checkTrackComponentOverlap, hitRatio]
  simp [hne]

theorem continuity_iff (b1 b2 : BBoxQ) (img : BinImg) :
    checkTrackContinuity b1 b2 img = true ↔
      mkRat 2 5 < roiTrackFraction b1 b2 img := by
  rw [checkTrackContinuity, roiTrackFraction]
  by_cases h0 : roiTotal b1 b2 img = 0
  · rw [if_pos h0, h0]
    simp
  · rw [if_neg h0]
    simp

/-- C1: `are_components_connected` returns true exactly when both
perimeter hit-ratios (12 samples per edge, 5 px margin) reach 0.35, the
squared centre distance is below 140², and the track fraction of the
25-px-margin region bounding the two centres strictly exceeds 0.40;
consequently two components at distance 500 (squared distance 250000)
are never judged connected. -/
theorem C1_connection_rule :
    (∀ (b1 b2 : BBoxQ) (img : BinImg),
      areComponentsConnected b1 b2 img = true ↔
        (mkRat 35 100 ≤ hitRatio img b1 12 ∧
         mkRat 35 100 ≤ hitRatio img b2 12 ∧
         (b2.x - b1.x) ^ 2 + (b2.y - b1.y) ^ 2 < 140 ^ 2 ∧
         mkRat 2 5 < roiTrackFraction b1 b2 img)) ∧
    (∀ (b1 b2 : BBoxQ) (img : BinImg),
      (b2.x - b1.x) ^ 2 + (b2.y - b1.y) ^ 2 = 250000 →
      areComponentsConnected b1 b2 img = false) := by
  constructor
  · intro b1 b2 img
    rw [← overlap12_iff img b1, ← overlap12_iff img b2, ← continuity_iff b1 b2 img]
    cases ho1 : checkTrackComponentOverlap img b1 12 (mkRat 35 100) <;>
      cases ho2 : checkTrackComponentOverlap img b2 12 (mkRat 35 100) <;>
        by_cases hd : (b2.x - b1.x) ^ 2 + (b2.y - b1.y) ^ 2 < 140 ^ 2 <;>
          simp [areComponentsConnected, ho1, ho2, hd]
  · intro b1 b2 img h
    have hd : ¬ ((b2.x - b1.x) ^ 2 + (b2.y - b1.y) ^ 2 < 140 ^ 2) := by
      rw [h]
      norm_num
    cases ho1 : checkTrackComponentOverlap img b1 12 (mkRat 35 100) <;>
      cases ho2 : checkTrackComponentOverlap img b2 12 (mkRat 35 100) <;>
        simp [areComponentsConnected, ho1, ho2, hd]

/-- Concrete bounding boxes 500 px apart and an empty image. -/
def bbNear : BBoxQ := ⟨0, 0, 10, 10⟩

def bbFar : BBoxQ := ⟨500, 0, 10, 10⟩

def imgZero : BinImg := ⟨0, 0, fun _ _ => 0⟩

/-- C1 witness: the theorem applied to two concrete components 500 px
apart. -/
theorem C1_connection_rule_witness :
    areComponentsConnected bbNear bbFar imgZero = false :=
  C1_connection_rule.2 bbNear bbFar imgZero (by norm_num [bbNear, bbFar])

/-- The `CircuitGraph` state of `schematic_builder.py`: the NetworkX
node list (id with optional attributes; one entry per id, insertion
order), the NetworkX undirected edge list (one entry per unordered
pair), the `components` list of dicts, and the `connections` string
list. -/
structure CGraph where
  nodes : List (String × Option (String × BBoxQ))
  edges : List (String × String)
  components : List (String × String × BBoxQ)
  connections : List String
deriving DecidableEq

def cgEmpty : CGraph := ⟨[], [], [], []⟩

/-- `nx.Graph.add_node` with attributes: update in place when the id is
present, else append. -/
def updateNode (ns : List (String × Option (String × BBoxQ))) (i : String)
    (d : String × BBoxQ) : List (String × Option (String × BBoxQ)) :=
  match ns with
  | [] => [(i, some d)]
  | (j, d0) :: rest =>
    if j = i then (i, some d) :: rest else (j, d0) :: updateNode rest i d

/-- `nx.Graph.add_edge` inserts missing endpoint nodes without
attributes. -/
def ensureNode (ns : List (String × Option (String × BBoxQ))) (i : String) :
    List (String × Option (String × BBoxQ)) :=
  if ns.any (fun e => decide (e.1 = i)) then ns else ns ++ [(i, none)]

/-- The undirected edge set: an unordered pair is inserted at most
once. -/
def addEdge (es : List (String × String)) (a b : String) : List (String × String) :=
  if (a, b) ∈ es ∨ (b, a) ∈ es then es else es ++ [(a, b)]

/-- `CircuitGraph.add_component`: `add_node` plus an unconditional
append to `self.components`.  The Python method has no failure path. -/
def addComponent (g : CGraph) (i ty : String) (bb : BBoxQ) : CGraph :=
  { g with
    nodes := updateNode g.nodes i (ty, bb)
    components := g.components ++ [(i, ty, bb)] }

/-- The netlist string `f"{id1} -- {id2}"`. -/
def connStr (a b : String) : String := a ++ " -- " ++ b

/-- `CircuitGraph.add_connection`: skip self-loops, add the undirected
edge, and append the connection string unless that exact string is
already recorded. -/
def addConnection (g : CGraph) (a b : String) : CGraph :=
  if a ≠ b then
    if connStr a b ∈ g.connections then
      { g with
        nodes := ensureNode (ensureNode g.nodes a) b
        edges := addEdge g.edges a b }
    else
      { g with
        nodes := ensureNode (ensureNode g.nodes a) b
        edges := addEdge g.edges a b
        connections := g.connections ++ [connStr a b] }
  else g

theorem cgraph_fields_ext (u v : CGraph) (h1 : u.nodes = v.nodes)
    (h2 : u.edges = v.edges) (h3 : u.components = v.components)
    (h4 : u.connections = v.connections) : u = v := by
  cases u
  cases v
  simp_all

theorem addConnection_self (g : CGraph) (a : String) : addConnection g a a = g := by
  simp [addConnection]

theorem addConnection_nodes (g : CGraph) {a b : String} (hab : a ≠ b) :
    (addConnection g a b).nodes = ensureNode (ensureNode g.nodes a) b := by
  rw [addConnection, if_pos hab]
  split_ifs <;> rfl

theorem addConnection_edges (g : CGraph) {a b : String} (hab : a ≠ b) :
    (addConnection g a b).edges = addEdge g.edges a b := by
  rw [addConnection, if_pos hab]
  split_ifs <;> rfl

theorem addConnection_components (g : CGraph) (a b : String) :
    (addConnection g a b).components = g.components := by
  rw [addConnection]
  split_ifs <;> rfl

theorem addConnection_connections (g : CGraph) {a b : String} (hab : a ≠ b) :
    (addConnection g a b).connections =
      if connStr a b ∈ g.connections then g.connections
      else g.connections ++ [connStr a b] := by
  rw [addConnection, if_pos hab]
  split_ifs <;> rfl

theorem ensureNode_any_self (ns : List (String × Option (String × BBoxQ))) (i : String) :
    (ensureNode ns i).any (fun e => decide (e.1 = i)) = true := by
  rw [ensureNode]
  split_ifs with h
  · exact h
  · simp

theorem ensureNode_any_mono {ns : List (String × Option (String × BBoxQ))}
    {p : String × Option (String × BBoxQ) → Bool} (h : ns.any p = true) (j : String) :
    (ensureNode ns j).any p = true := by
  rw [ensureNode]
  split_ifs with hj
  · exact h
  · rw [List.any_append, h, Bool.true_or]

theorem ensureNode_of_any {ns : List (String × Option (String × BBoxQ))} {i : String}
    (h : ns.any (fun e => decide (e.1 = i)) = true) : ensureNode ns i = ns := by
  rw [ensureNode, if_pos h]

theorem addEdge_mem_or (es : List (String × String)) (a b : String) :
    (a, b) ∈ addEdge es a b ∨ (b, a) ∈ addEdge es a b := by
  rw [addEdge]
  split_ifs with h
  · exact h
  · exact Or.inl (List.mem_append_right _ (List.mem_singleton_self _))

theorem addEdge_of_mem {es : List (String × String)} {a b : String}
    (h : (a, b) ∈ es ∨ (b, a) ∈ es) : addEdge es a b = es := by
  rw [addEdge, if_pos h]

theorem connStr_mem_addConnection (g : CGraph) {a b : String} (hab : a ≠ b) :
    connStr a b ∈ (addConnection g a b).connections := by
  rw [addConnection_connections g hab]
  split_ifs with h
  · exact h
  · exact List.mem_append_right _ (List.mem_singleton_self _)

theorem addConnection_idem (g : CGraph) (a b : String) :
    addConnection (addConnection g a b) a b = addConnection g a b := by
  by_cases hab : a = b
  · subst hab
    rw [addConnection_self, addConnection_self]
  · apply cgraph_fields_ext
    · rw [addConnection_nodes _ hab, addConnection_nodes g hab,
        ensureNode_of_any, ensureNode_of_any]
      · exact ensureNode_any_mono (ensureNode_any_self g.nodes a) b
      · rw [ensureNode_of_any (ensureNode_any_mono (ensureNode_any_self g.nodes a) b)]
        exact ensureNode_any_self _ b
    · rw [addConnection_edges _ hab, addConnection_edges g hab,
        addEdge_of_mem (addEdge_mem_or g.edges a b)]
    · rw [addConnection_components, addConnection_components]
    · rw [addConnection_connections _ hab,
        if_pos (connStr_mem_addConnection g hab)]

/-- C7 counterexample: `add_connection("A","B")` followed by
`add_connection("B","A")` records TWO netlist strings, not one — the
duplicate check compares the oriented string `f"{id1} -- {id2}"`, so
the reversed orientation is appended again. -/
theorem C7_counterexample :
    (addConnection (addConnection cgEmpty "A" "B") "B" "A").connections =
      ["A -- B", "B -- A"] ∧
    ¬ (addConnection (addConnection cgEmpty "A" "B") "B" "A").connections.length = 1 := by
  constructor <;> decide

/-- C7 (amended): `add_connection(a,a)` changes nothing; repeating
`add_connection(a,b)` changes nothing after the first call; the
unordered graph edge is recorded at most once even for the reversed
call `add_connection(b,a)`; but the netlist records each orientation
separately: the reversed call appends a second string, and the two
same-order calls leave exactly one netlist entry. -/
theorem C7_connection_invariants (g : CGraph) (a b : String) :
    addConnection g a a = g ∧
    addConnection (addConnection g a b) a b = addConnection g a b ∧
    (addConnection (addConnection g a b) b a).edges = (addConnection g a b).edges ∧
    (a ≠ b → connStr b a ∉ (addConnection g a b).connections →
      (addConnection (addConnection g a b) b a).connections =
        (addConnection g a b).connections ++ [connStr b a]) ∧
    (a ≠ b → (addConnection (addConnection cgEmpty a b) a b).connections = [connStr a b]) := by
  refine ⟨addConnection_self g a, addConnection_idem g a b, ?_, ?_, ?_⟩
  · by_cases hab : a = b
    · subst hab
      rw [addConnection_self, addConnection_self]
    · have hba : b ≠ a := fun h => hab h.symm
      rw [addConnection_edges _ hba, addConnection_edges g hab]
      exact addEdge_of_mem (Or.symm (addEdge_mem_or g.edges a b))
  · intro hab hnot
    have hba : b ≠ a := fun h => hab h.symm
    rw [addConnection_connections _ hba, if_neg hnot]
  · intro hab
    have h1 : (addConnection cgEmpty a b).connections = [connStr a b] := by
      rw [addConnection_connections cgEmpty hab]
      simp [cgEmpty]
    rw [addConnection_idem, h1]

/-- C7 witness: the amended theorem applied at concrete identifiers. -/
theorem C7_connection_invariants_witness :
    (addConnection (addConnection cgEmpty "A" "B") "A" "B").connections =
      [connStr "A" "B"] :=
  (C7_connection_invariants cgEmpty "A" "B").2.2.2.2 (by decide)

theorem updateNode_length_of_mem (i : String) (d : String × BBoxQ) :
    ∀ ns : List (String × Option (String × BBoxQ)),
      i ∈ ns.map Prod.fst → (updateNode ns i d).length = ns.length := by
  intro ns
  induction ns with
  | nil => intro h; exact absurd h (List.not_mem_nil i)
  | cons e rest ih =>
    intro h
    obtain ⟨j, d0⟩ := e
    rw [updateNode]
    split_ifs with hj
    · rfl
    · rcases List.mem_cons.mp h with h1 | h1
      · exact absurd h1.symm hj
      · rw [List.length_cons, List.length_cons, ih h1]

/-- Concrete graph with one component, used as evaluation point. -/
def cgR1 : CGraph := addComponent cgEmpty "R1" "Resistor" bbNear

/-- C8 counterexample: `add_component` invoked with an identifier that
is already a node does NOT fail — the call completes, leaves the node
set unchanged and appends a duplicate entry to the component list. -/
theorem C8_counterexample :
    (addComponent cgR1 "R1" "Resistor" bbNear).components.length = 2 ∧
    (addComponent cgR1 "R1" "Resistor" bbNear).nodes.length = 1 := by
  constructor <;> rfl

/-- C8 (amended): `add_component` never fails; on a duplicate
identifier it overwrites the node attributes (node count unchanged)
and appends another entry to the component list, so identifier
uniqueness is not enforced. -/
theorem C8_add_component_no_failure (g : CGraph) (i ty : String) (bb : BBoxQ)
    (h : i ∈ g.nodes.map Prod.fst) :
    (addComponent g i ty bb).nodes.length = g.nodes.length ∧
    (addComponent g i ty bb).components.length = g.components.length + 1 := by
  constructor
  · exact updateNode_length_of_mem i (ty, bb) g.nodes h
  · simp [addComponent]

/-- C8 witness: the amended theorem applied at a concrete duplicate
insertion. -/
theorem C8_add_component_no_failure_witness :
    (addComponent cgR1 "R1" "Resistor" bbNear).nodes.length = cgR1.nodes.length ∧
    (addComponent cgR1 "R1" "Resistor" bbNear).components.length =
      cgR1.components.length + 1 :=
  C8_add_component_no_failure cgR1 "R1" "Resistor" bbNear (by decide)

/-- `pat` is a leading segment of `s` (character-by-character). -/
def startsW : List Char → List Char → Bool
  | [], _ => true
  | _ :: _, [] => false
  | c :: cs, d :: ds => c == d && startsW cs ds

/-- Python's `pat in s` substring test on character lists. -/
def hasSub : List Char → List Char → Bool
  | [], pat => pat.isEmpty
  | c :: cs, pat => startsW pat (c :: cs) || hasSub cs pat

/-- The seven counter classes of `ocr_service.component_counters`:
resistor, capacitor, ic, diode, led, transistor, unknown. -/
inductive CKey where
  | kR
  | kC
  | kU
  | kD
  | kLED
  | kQ
  | kX
deriving DecidableEq, Repr

/-- The counter dictionary, one natural per class. -/
def Counters := CKey → ℕ

/-- `reset_counters` of `ocr_service.py`: every counter back to 0. -/
def resetCounters : Counters := fun _ => 0

/-- The if/elif chain of `get_generic_id`: which counter a (lowercased)
class name selects.  ASCII lowercasing models Python's `str.lower` on
the class names the detector produces. -/
def classKey (className : List Char) : CKey :=
  let s := className.map Char.toLower
  if hasSub s ['r', 'e', 's', 'i', 's', 't', 'o', 'r'] then CKey.kR
  else if hasSub s ['c', 'a', 'p', 'a', 'c', 'i', 't', 'o', 'r'] then CKey.kC
  else if hasSub s ['i', 'c'] || hasSub s ['c', 'h', 'i', 'p'] ||
      hasSub s ['i', 'n', 't', 'e', 'g', 'r', 'a', 't', 'e', 'd'] then CKey.kU
  else if hasSub s ['d', 'i', 'o', 'd', 'e'] then CKey.kD
  else if hasSub s ['l', 'e', 'd'] then CKey.kLED
  else if hasSub s ['t', 'r', 'a', 'n', 's', 'i', 's', 't', 'o', 'r'] then CKey.kQ
  else CKey.kX

/-- The label letters of the f-strings: R, C, U, D, LED, Q, X. -/
def keyChars : CKey → List Char
  | CKey.kR => ['R']
  | CKey.kC => ['C']
  | CKey.kU => ['U']
  | CKey.kD => ['D']
  | CKey.kLED => ['L', 'E', 'D']
  | CKey.kQ => ['Q']
  | CKey.kX => ['X']

/-- Python `str(n)` for a natural number: big-endian decimal digits. -/
def natRepr (n : ℕ) : List Char :=
  if n = 0 then ['0'] else ((Nat.digits 10 n).map Nat.digitChar).reverse

/-- The identifier `f"{label}{counter}"`. -/
def mkId (k : CKey) (n : ℕ) : List Char := keyChars k ++ natRepr n

/-- `get_generic_id`: bump the selected counter and render the id.
This is the matched if/elif branch of the source, which increments
`component_counters[key]` and returns `f"{label}{counter}"`. -/
def getGenericId (className : List Char) (st : Counters) : List Char × Counters :=
  (mkId (classKey className) (st (classKey className) + 1),
   fun k => if k = classKey className then st (classKey className) + 1 else st k)

/-- A run of `get_generic_id` calls over a list of class names within
one analysis. -/
def runGenericIds : List (List Char) → Counters → List (List Char) × Counters
  | [], st => ([], st)
  | c :: cs, st =>
    ((getGenericId c st).1 :: (runGenericIds cs (getGenericId c st).2).1,
      (runGenericIds cs (getGenericId c st).2).2)

theorem digitChar_inj_lt : ∀ a, a < 10 → ∀ b, b < 10 →
    Nat.digitChar a = Nat.digitChar b → a = b := by decide

theorem map_digitChar_inj : ∀ ds es : List ℕ, (∀ d ∈ ds, d < 10) → (∀ e ∈ es, e < 10) →
    ds.map Nat.digitChar = es.map Nat.digitChar → ds = es := by
  intro ds
  induction ds with
  | nil =>
    intro es _ _ h
    cases es with
    | nil => rfl
    | cons e es => simp at h
  | cons d ds ih =>
    intro es hd he h
    cases es with
    | nil => simp at h
    | cons e es =>
      simp only [List.map_cons, List.cons.injEq] at h
      have h1 : d = e := digitChar_inj_lt d (hd d (List.mem_cons_self d ds))
        e (he e (List.mem_cons_self e es)) h.1
      rw [h1, ih es (fun x hx => hd x (List.mem_cons_of_mem d hx))
        (fun x hx => he x (List.mem_cons_of_mem e hx)) h.2]

theorem natRepr_ne_singleton_zero {n : ℕ} (hn : n ≠ 0) : natRepr n ≠ ['0'] := by
  rw [natRepr, if_neg hn]
  intro h
  have h2 : (Nat.digits 10 n).map Nat.digitChar = ['0'] := by
    have := congrArg List.reverse h
    simpa using this
  have h3 : Nat.digits 10 n = [0] :=
    map_digitChar_inj _ [0] (fun d hd => Nat.digits_lt_base (by norm_num) hd)
      (by intro e he; simp at he; omega) (by rw [h2]; rfl)
  have h4 := Nat.ofDigits_digits 10 n
  rw [h3] at h4
  simp [Nat.ofDigits] at h4
  exact hn (by omega)

theorem natRepr_inj (m n : ℕ) (h : natRepr m = natRepr n) : m = n := by
  by_cases hm : m = 0 <;> by_cases hn : n = 0
  · rw [hm, hn]
  · exfalso
    apply natRepr_ne_singleton_zero hn
    rw [← h, hm]
    rfl
  · exfalso
    apply natRepr_ne_singleton_zero hm
    rw [h, hn]
    rfl
  · rw [natRepr, if_neg hm, natRepr, if_neg hn] at h
    have h2 : (Nat.digits 10 m).map Nat.digitChar =
        (Nat.digits 10 n).map Nat.digitChar := by
      have := congrArg List.reverse h
      simpa using this
    have h3 : Nat.digits 10 m = Nat.digits 10 n :=
      map_digitChar_inj _ _ (fun d hd => Nat.digits_lt_base (by norm_num) hd)
        (fun d hd => Nat.digits_lt_base (by norm_num) hd) h2
    have h4 := Nat.ofDigits_digits 10 m
    rw [h3, Nat.ofDigits_digits] at h4
    exact h4.symm

theorem mkId_inj (k k2 : CKey) (m n : ℕ) (h : mkId k m = mkId k2 n) : k = k2 ∧ m = n := by
  cases k <;> cases k2 <;> simp [mkId, keyChars] at h <;>
    exact ⟨rfl, natRepr_inj _ _ h⟩

theorem getGenericId_fst (c : List Char) (st : Counters) :
    (getGenericId c st).1 = mkId (classKey c) (st (classKey c) + 1) := rfl

theorem getGenericId_snd_self (c : List Char) (st : Counters) :
    (getGenericId c st).2 (classKey c) = st (classKey c) + 1 := by
  simp [getGenericId]

theorem getGenericId_snd_other (c : List Char) (st : Counters) (k : CKey)
    (hk : k ≠ classKey c) : (getGenericId c st).2 k = st k := by
  simp [getGenericId, hk]

theorem runGenericIds_cons (c : List Char) (cs : List (List Char)) (st : Counters) :
    runGenericIds (c :: cs) st =
      ((getGenericId c st).1 :: (runGenericIds cs (getGenericId c st).2).1,
        (runGenericIds cs (getGenericId c st).2).2) := rfl

theorem runGenericIds_spec (names : List (List Char)) :
    ∀ st : Counters,
      (∀ k, st k ≤ (runGenericIds names st).2 k) ∧
      (∀ id ∈ (runGenericIds names st).1,
        ∃ k m, id = mkId k m ∧ st k < m ∧ m ≤ (runGenericIds names st).2 k) ∧
      (runGenericIds names st).1.Pairwise (fun x y => x ≠ y) := by
  induction names with
  | nil =>
    intro st
    refine ⟨fun k => le_refl _, ?_, List.Pairwise.nil⟩
    intro id hid
    exact absurd hid (List.not_mem_nil id)
  | cons c cs ih =>
    intro st
    obtain ⟨ihmono, ihmem, ihpw⟩ := ih (getGenericId c st).2
    have hbump : ∀ k, st k ≤ (getGenericId c st).2 k := by
      intro k
      by_cases hk : k = classKey c
      · subst hk
        rw [getGenericId_snd_self]
        exact Nat.le_succ _
      · rw [getGenericId_snd_other c st k hk]
    refine ⟨?_, ?_, ?_⟩
    · intro k
      rw [runGenericIds_cons]
      exact le_trans (hbump k) (ihmono k)
    · intro id hid
      rw [runGenericIds_cons] at hid
      rcases List.mem_cons.mp hid with h1 | h1
      · refine ⟨classKey c, st (classKey c) + 1,
          by rw [h1, getGenericId_fst], Nat.lt_succ_self _, ?_⟩
        rw [runGenericIds_cons]
        calc st (classKey c) + 1 = (getGenericId c st).2 (classKey c) :=
              (getGenericId_snd_self c st).symm
          _ ≤ _ := ihmono (classKey c)
      · obtain ⟨k, m, heq, hlt, hle⟩ := ihmem id h1
        refine ⟨k, m, heq, lt_of_le_of_lt (hbump k) hlt, ?_⟩
        rw [runGenericIds_cons]
        exact hle
    · rw [runGenericIds_cons]
      refine List.pairwise_cons.mpr ⟨?_, ihpw⟩
      intro id hid
      obtain ⟨k, m, heq, hlt, _⟩ := ihmem id hid
      rw [getGenericId_fst, heq]
      intro hcontra
      obtain ⟨hk, hm⟩ := mkId_inj _ _ _ _ hcontra
      subst hk
      rw [getGenericId_snd_self] at hlt
      omega

/-- C10: starting from `reset_counters`, any sequence of
`get_generic_id` calls within one run returns pairwise-distinct
identifiers; each call increments exactly the counter of its class
(label letters R, C, U, D, LED, Q, X) and leaves the others
unchanged. -/
theorem C10_generic_ids_distinct :
    (∀ names : List (List Char),
      (runGenericIds names resetCounters).1.Pairwise (fun x y => x ≠ y)) ∧
    (∀ (c : List Char) (st : Counters),
      (getGenericId c st).2 (classKey c) = st (classKey c) + 1 ∧
      ∀ k : CKey, k ≠ classKey c → (getGenericId c st).2 k = st k) := by
  constructor
  · intro names
    exact (runGenericIds_spec names resetCounters).2.2
  · intro c st
    exact ⟨getGenericId_snd_self c st, fun k hk => getGenericId_snd_other c st k hk⟩

def ledChars : List Char := ['l', 'e', 'd']

/-- C10 witness: a call classified as an LED leaves the resistor
counter unchanged. -/
theorem C10_generic_ids_distinct_witness :
    (getGenericId ledChars resetCounters).2 CKey.kR = resetCounters CKey.kR :=
  (C10_generic_ids_distinct.2 ledChars resetCounters).2 CKey.kR (by decide)
